import Mathlib

/-!
Verification of the route construction, feasibility-checking and
violation-repair engine of the goodspeed-route-analyzer repository.

The repository contains two variants of the engine:
* `src/route_optimizer.py` — times in seconds, windows are optional
  (start, end) pairs, travel durations derived from a haversine distance
  and an average speed;
* `src/vrptw_manager.py` — times in minutes, windows are end-only
  deadlines, travel durations come from an externally supplied integer
  matrix, and stops carry a delivered flag.

Both are embedded below, in namespaces `RO` and `VM` respectively.
Floating-point distances of the `RO` variant are embedded as rationals,
and the haversine-of-coordinates composition is abstracted as an explicit
distance-function parameter `dist` (the Python code looks distances up by
list index, but the looked-up orders are structurally equal to the ones in
hand, and the haversine value is a function of the order's fields alone,
so the two presentations agree); the vehicle speed is the constructor
parameter `speed`.  Python's `int()` truncation toward zero is `pyInt`.
-/

namespace GoodSpeed

/-- Truncation toward zero, Python's `int()` applied to a rational. -/
def pyInt (q : ℚ) : Int := if 0 ≤ q then ⌊q⌋ else ⌈q⌉

/-! First-strict-minimum scan.  Python's `min(xs, key=f)` as well as the
`best_score = inf; if score < best_score: update` loops of both optimizers
keep the earliest element attaining the minimal key.  `pickMin` is that
scan; `pickMinAux` carries the current best element. -/

def pickMinAux {α β : Type} [LinearOrder β] (f : α → β) : Option α → List α → Option α
  | best, [] => best
  | best, x :: xs =>
    pickMinAux f (some (match best with
      | none => x
      | some b => if f x < f b then x else b)) xs

def pickMin {α β : Type} [LinearOrder β] (f : α → β) (l : List α) : Option α :=
  pickMinAux f none l

theorem pickMin_cons {α β : Type} [LinearOrder β] (f : α → β) (b : α) (l : List α) :
    pickMin f (b :: l) = pickMinAux f (some b) l := rfl

theorem pickMinAux_mem {α β : Type} [LinearOrder β] (f : α → β) :
    ∀ (l : List α) (ob : Option α) (r : α),
      pickMinAux f ob l = some r → r ∈ l ∨ ob = some r := by
  intro l
  induction l with
  | nil => intro ob r h; exact Or.inr h
  | cons x xs ih =>
    intro ob r h
    match ob with
    | none =>
      rcases ih (some x) r h with h' | h'
      · exact Or.inl (List.mem_cons_of_mem _ h')
      · simp only [Option.some.injEq] at h'
        exact Or.inl (h' ▸ List.mem_cons_self x xs)
    | some b =>
      rcases ih _ r h with h' | h'
      · exact Or.inl (List.mem_cons_of_mem _ h')
      · simp only [Option.some.injEq] at h'
        by_cases hc : f x < f b
        · rw [if_pos hc] at h'
          exact Or.inl (h' ▸ List.mem_cons_self x xs)
        · rw [if_neg hc] at h'
          exact Or.inr (by rw [h'])

theorem pickMin_mem {α β : Type} [LinearOrder β] (f : α → β) {l : List α} {r : α}
    (h : pickMin f l = some r) : r ∈ l := by
  rcases pickMinAux_mem f l none r h with h' | h'
  · exact h'
  · cases h'

theorem pickMinAux_isSome {α β : Type} [LinearOrder β] (f : α → β) :
    ∀ (l : List α) (b : α), (pickMinAux f (some b) l).isSome := by
  intro l
  induction l with
  | nil => intro b; rfl
  | cons x xs ih => intro b; exact ih _

theorem pickMin_isSome {α β : Type} [LinearOrder β] (f : α → β) {l : List α}
    (h : l ≠ []) : (pickMin f l).isSome := by
  match l with
  | [] => exact absurd rfl h
  | x :: xs => exact pickMinAux_isSome f xs x

/-- Congruence for `find?`: predicates agreeing on the list's elements find
the same result. -/
theorem find?_congr_on {α : Type} {p q : α → Bool} :
    ∀ {l : List α}, (∀ a ∈ l, p a = q a) → l.find? p = l.find? q := by
  intro l
  induction l with
  | nil => intro _; rfl
  | cons x xs ih =>
    intro h
    have hx := h x (List.mem_cons_self x xs)
    by_cases hp : p x = true
    · rw [List.find?_cons_of_pos _ hp, List.find?_cons_of_pos _ (hx ▸ hp)]
    · have hp' : ¬ q x = true := fun hq => hp (hx ▸ hq)
      rw [List.find?_cons_of_neg _ (by simpa using hp),
        List.find?_cons_of_neg _ (by simpa using hp'),
        ih (fun a ha => h a (List.mem_cons_of_mem _ ha))]

/-- Key predicate of the characterization: `v` attains the minimum of the
keys over `L`. -/
def isMinOver {α β : Type} [LinearOrder β] (f : α → β) (L : List α) (v : α) : Bool :=
  decide (∀ y ∈ L, f v ≤ f y)

/-- Characterization of the first-strict-minimum scan: it returns the first
element whose key is a global minimum of the keys in the list. -/
theorem pickMinAux_eq_find {α β : Type} [LinearOrder β] (f : α → β) :
    ∀ (l : List α) (b : α),
      pickMinAux f (some b) l = (b :: l).find? (isMinOver f (b :: l)) := by
  intro l
  induction l with
  | nil =>
    intro b
    have hb : isMinOver f [b] b = true := by simp [isMinOver]
    rw [show pickMinAux f (some b) [] = some b from rfl,
      List.find?_cons_of_pos _ hb]
  | cons x xs ih =>
    intro b
    by_cases hc : f x < f b
    · -- the new element strictly improves: the carried best becomes `x`
      have hstep : pickMinAux f (some b) (x :: xs) = pickMinAux f (some x) xs := by
        show pickMinAux f (some (if f x < f b then x else b)) xs = _
        rw [if_pos hc]
      have hbfalse : isMinOver f (b :: x :: xs) b = false := by
        simp only [isMinOver, decide_eq_false_iff_not]
        intro hall
        exact absurd (hall x (List.mem_cons_of_mem _ (List.mem_cons_self x xs)))
          (not_le_of_lt hc)
      have hcongr : ∀ a ∈ x :: xs,
          isMinOver f (x :: xs) a = isMinOver f (b :: x :: xs) a := by
        intro a _
        simp only [isMinOver]
        rw [decide_eq_decide]
        constructor
        · intro hall y hy
          rcases List.mem_cons.1 hy with rfl | hy
          · exact le_of_lt (lt_of_le_of_lt (hall x (List.mem_cons_self x xs)) hc)
          · exact hall y hy
        · intro hall y hy
          exact hall y (List.mem_cons_of_mem _ hy)
      calc pickMinAux f (some b) (x :: xs)
          = pickMinAux f (some x) xs := hstep
        _ = (x :: xs).find? (isMinOver f (x :: xs)) := ih x
        _ = (x :: xs).find? (isMinOver f (b :: x :: xs)) := find?_congr_on hcongr
        _ = (b :: x :: xs).find? (isMinOver f (b :: x :: xs)) :=
            (List.find?_cons_of_neg _ (by simpa using hbfalse)).symm
    · -- the carried best survives
      have hbx : f b ≤ f x := le_of_not_lt hc
      have hstep : pickMinAux f (some b) (x :: xs) = pickMinAux f (some b) xs := by
        show pickMinAux f (some (if f x < f b then x else b)) xs = _
        rw [if_neg hc]
      by_cases h2a : ∀ y ∈ b :: xs, f b ≤ f y
      · have hbig : ∀ y ∈ b :: x :: xs, f b ≤ f y := by
          intro y hy
          rcases List.mem_cons.1 hy with rfl | hy
          · exact le_refl _
          · rcases List.mem_cons.1 hy with rfl | hy
            · exact hbx
            · exact h2a y (List.mem_cons_of_mem _ hy)
        calc pickMinAux f (some b) (x :: xs)
            = pickMinAux f (some b) xs := hstep
          _ = (b :: xs).find? (isMinOver f (b :: xs)) := ih b
          _ = some b := List.find?_cons_of_pos _ (by simpa [isMinOver] using h2a)
          _ = (b :: x :: xs).find? (isMinOver f (b :: x :: xs)) :=
              (List.find?_cons_of_pos _ (by simpa [isMinOver] using hbig)).symm
      · -- some element of `xs` is strictly below `b`
        obtain ⟨z, hz, hzlt⟩ : ∃ z ∈ b :: xs, f z < f b := by
          push_neg at h2a
          exact h2a
        have hzxs : z ∈ xs := by
          rcases List.mem_cons.1 hz with rfl | hz'
          · exact absurd hzlt (lt_irrefl _)
          · exact hz'
        have hbfalse : isMinOver f (b :: x :: xs) b = false := by
          simp only [isMinOver, decide_eq_false_iff_not]
          intro hall
          exact absurd (hall z (List.mem_cons_of_mem _ (List.mem_cons_of_mem _ hzxs)))
            (not_le_of_lt hzlt)
        have hxfalse : isMinOver f (b :: x :: xs) x = false := by
          simp only [isMinOver, decide_eq_false_iff_not]
          intro hall
          exact absurd (hall z (List.mem_cons_of_mem _ (List.mem_cons_of_mem _ hzxs)))
            (not_le_of_lt (lt_of_lt_of_le hzlt hbx))
        have hbfalse' : isMinOver f (b :: xs) b = false := by
          simp only [isMinOver, decide_eq_false_iff_not]
          intro hall
          exact absurd (hall z hz) (not_le_of_lt hzlt)
        have hcongr : ∀ a ∈ xs,
            isMinOver f (b :: xs) a = isMinOver f (b :: x :: xs) a := by
          intro a _
          simp only [isMinOver]
          rw [decide_eq_decide]
          constructor
          · intro hall y hy
            rcases List.mem_cons.1 hy with rfl | hy
            · exact hall y (List.mem_cons_self _ _)
            · rcases List.mem_cons.1 hy with rfl | hy
              · exact le_trans (hall b (List.mem_cons_self _ _)) hbx
              · exact hall y (List.mem_cons_of_mem _ hy)
          · intro hall y hy
            rcases List.mem_cons.1 hy with rfl | hy
            · exact hall y (List.mem_cons_self _ _)
            · exact hall y (List.mem_cons_of_mem _ (List.mem_cons_of_mem _ hy))
        calc pickMinAux f (some b) (x :: xs)
            = pickMinAux f (some b) xs := hstep
          _ = (b :: xs).find? (isMinOver f (b :: xs)) := ih b
          _ = xs.find? (isMinOver f (b :: xs)) :=
              List.find?_cons_of_neg _ (by simpa using hbfalse')
          _ = xs.find? (isMinOver f (b :: x :: xs)) := find?_congr_on hcongr
          _ = (x :: xs).find? (isMinOver f (b :: x :: xs)) :=
              (List.find?_cons_of_neg _ (by simpa using hxfalse)).symm
          _ = (b :: x :: xs).find? (isMinOver f (b :: x :: xs)) :=
              (List.find?_cons_of_neg _ (by simpa using hbfalse)).symm

theorem pickMin_eq_find {α β : Type} [LinearOrder β] (f : α → β) (b : α) (l : List α) :
    pickMin f (b :: l) = (b :: l).find? (isMinOver f (b :: l)) := by
  rw [pickMin_cons, pickMinAux_eq_find]

/-! ## Embedding of `src/route_optimizer.py` -/

namespace RO

/-- Order of `route_optimizer.py` (lines 67-101).  Window bounds are kept
in seconds since midnight, the unit `time_to_seconds` converts the
`'HH:MM'` strings to before any comparison happens.  `__post_init__`
computes `_start_seconds`/`_end_seconds` only when BOTH raw fields are
set; otherwise both stay `None` — see `startSeconds`/`endSeconds`. -/
structure Order where
  id : Int
  address : String
  latitude : ℚ
  longitude : ℚ
  time_window_start : Option Int
  time_window_end : Option Int
deriving DecidableEq, Repr

/-- Derived `_start_seconds` (lines 92-101): set only when both raw window
fields are present. -/
def startSeconds (o : Order) : Option Int :=
  match o.time_window_start, o.time_window_end with
  | some s, some _ => some s
  | _, _ => none

/-- Derived `_end_seconds` (lines 92-101): set only when both raw window
fields are present — a deadline-only order has `_end_seconds = None`. -/
def endSeconds (o : Order) : Option Int :=
  match o.time_window_start, o.time_window_end with
  | some _, some e => some e
  | _, _ => none

/-- Validation of `__post_init__` (lines 87-98): `start` present requires
`end` present, and `start < end`. -/
def wf (o : Order) : Prop :=
  (o.time_window_start.isSome → o.time_window_end.isSome) ∧
    (∀ s e, o.time_window_start = some s → o.time_window_end = some e → s < e)

/-- Method `has_time_window` (line 103): tests the raw START field. -/
def has_time_window (o : Order) : Bool :=
  o.time_window_start.isSome

/-- Method `can_be_visited_at` (line 107): vacuously true without a
time window, otherwise an interval check on the derived seconds. -/
def can_be_visited_at (o : Order) (t : Int) : Bool :=
  if has_time_window o then
    match startSeconds o, endSeconds o with
    | some s, some e => decide (s ≤ t ∧ t ≤ e)
    | _, _ => true  -- unreachable for validated orders
  else true

/-- A stop violates its window at arrival time `t`; the conjunction used at
lines 363-371 and 486. -/
def violB (o : Order) (t : Int) : Bool :=
  has_time_window o && !(can_be_visited_at o t)

/-- Travel duration in seconds, `calculate_travel_time` (lines 321-332)
composed with the distance function: `int(distance / speed * 3600)`. -/
def travelT (dist : Order → Order → ℚ) (speed : ℚ) (a b : Order) : Int :=
  pyInt (dist a b / speed * 3600)

/-- Waiting clamp of the simulation (lines 363-367): with a window and an
early arrival, the current time moves forward to the window start. -/
def clampW (o : Order) (t : Int) : Int :=
  match startSeconds o with
  | some s => if t < s then s else t
  | none => t

/-- Tail of `check_time_windows` (lines 345-374): simulate from the stop
after the first, given the previous stop and the running clock. -/
def checkAux (dist : Order → Order → ℚ) (speed : ℚ) (prev : Order) (t : Int) :
    List Order → Bool × List Int
  | [] => (true, [])
  | o :: rest =>
    let t1 := t + travelT dist speed prev o
    let t2 := clampW o t1
    let r := checkAux dist speed o t2 rest
    (!(violB o t2) && r.1, t2 :: r.2)

/-- Method `check_time_windows` (lines 334-374): returns the feasibility
flag and the simulated arrival times.  The first stop is reached at the
start time, every later stop after the travel duration from its
predecessor; early arrivals wait until the window opens. -/
def check_time_windows (dist : Order → Order → ℚ) (speed : ℚ)
    (route : List Order) (st : Int) : Bool × List Int :=
  match route with
  | [] => (true, [])
  | o :: rest =>
    let t2 := clampW o st
    let r := checkAux dist speed o t2 rest
    (!(violB o t2) && r.1, t2 :: r.2)

/-- Greedy candidate score of `optimize_route` (lines 424-443): base is
the distance, plus a small waiting penalty `wait/3600` for early arrivals
or a large lateness penalty `(late/60)*10` for late ones. -/
def roScore (dist : Order → Order → ℚ) (speed : ℚ) (last : Order) (t : Int)
    (cand : Order) : ℚ :=
  let d := dist last cand
  let arrival := t + travelT dist speed last cand
  d + (if has_time_window cand then
        match startSeconds cand, endSeconds cand with
        | some s, some e =>
          if arrival < s then ((s - arrival : Int) : ℚ) / 3600
          else if arrival > e then ((arrival - e : Int) : ℚ) / 60 * 10
          else 0
        | _, _ => 0  -- unreachable for validated orders
      else 0)

/-- Junk order used only for `headD` in positions the Python code guards
by earlier returns. -/
def defaultOrder : Order := ⟨0, "", 0, 0, none, none⟩

/-- Selection loop of `optimize_route` (lines 416-462): repeatedly pick
the remaining candidate with the minimal score (the first one on ties),
remove it by value, append it, and advance the clock by the travel time,
clamped forward to the window start on early arrival.  The fuel is the
initial length of the remaining list. -/
def roLoop (dist : Order → Order → ℚ) (speed : ℚ) :
    Nat → List Order → Order → List Order → Int → List Order
  | 0, route, _, _, _ => route
  | fuel + 1, route, last, remaining, t =>
    match remaining with
    | [] => route
    | _ :: _ =>
      match pickMin (roScore dist speed last t) remaining with
      | none => route  -- unreachable: remaining is nonempty
      | some best =>
        let t1 := t + travelT dist speed last best
        let t2 := match startSeconds best with
          | some s => if has_time_window best ∧ t1 < s then s else t1
          | none => t1
        roLoop dist speed fuel (route ++ [best]) best (remaining.erase best) t2

/-- Method `optimize_route` (lines 376-467).  Empty and singleton inputs
return early (the singleton with `all_valid = True` and `[start_time]`,
without looking at windows or distances).  Otherwise the seed is the
order with the minimal `_start_seconds` among those with a time window
(the first listed on ties), or the first order if none has a window; the
greedy loop then places the rest, and `check_time_windows` produces the
returned flag and arrival times. -/
def roSeed (orders : List Order) : Order :=
  match pickMin (fun o => (startSeconds o).getD 0) (orders.filter has_time_window) with
  | some x => x
  | none => orders.headD defaultOrder

def optimize_route (dist : Order → Order → ℚ) (speed : ℚ)
    (orders : List Order) (st : Int) : List Order × Bool × List Int :=
  match orders with
  | [] => ([], true, [])
  | [o] => ([o], true, [st])
  | _ :: _ :: _ =>
    let first := roSeed orders
    let remaining := orders.erase first
    let t0 := if has_time_window first then
        max st ((startSeconds first).getD st)
      else st
    let route := roLoop dist speed remaining.length [first] first remaining t0
    let r := check_time_windows dist speed route st
    (route, r.1, r.2)

end RO

/-! Generic helpers shared by the repairer and the VRPTW loop. -/

/-- Python's `enumerate`, starting at `n`. -/
def pyEnumFrom {α : Type} (n : Nat) : List α → List (Nat × α)
  | [] => []
  | x :: xs => (n, x) :: pyEnumFrom (n + 1) xs

def pyEnum {α : Type} (l : List α) : List (Nat × α) := pyEnumFrom 0 l

/-- Last element of a list, or the default when empty (a `foldl` that keeps
overwriting the accumulator). -/
def lastD {α : Type} (l : List α) (d : α) : α := l.foldl (fun _ x => x) d

theorem lastD_nil {α : Type} (d : α) : lastD [] d = d := rfl

theorem lastD_cons {α : Type} (x : α) (l : List α) (d : α) :
    lastD (x :: l) d = lastD l x := rfl

theorem lastD_mem_or_default {α : Type} :
    ∀ (l : List α) (d : α), lastD l d ∈ l ∨ lastD l d = d := by
  intro l
  induction l with
  | nil => intro d; exact Or.inr rfl
  | cons x xs ih =>
    intro d
    rw [lastD_cons]
    rcases ih x with h | h
    · exact Or.inl (List.mem_cons_of_mem _ h)
    · exact Or.inl (by rw [h]; exact List.mem_cons_self x xs)

/-- Position-scanning loop shared shape of the repairer (lines 504-527):
skip the stop's own original index; break with success on the first
position where the whole route becomes feasible; otherwise remember the
last position that strictly improves on the current violation count. -/
def scanPositions (ok improving : Nat → Bool) (j : Nat) :
    List Nat → Nat → Nat × Bool
  | [], best => (best, false)
  | p :: ps, best =>
    if p = j then scanPositions ok improving j ps best
    else if ok p then (p, true)
    else if improving p then scanPositions ok improving j ps p
    else scanPositions ok improving j ps best

/-- Characterization of `scanPositions`: the first feasible position wins
with the success flag set; otherwise the last strictly-improving position
(or the initial best) is kept with the flag clear. -/
theorem scanPositions_eq (ok improving : Nat → Bool) (j : Nat) :
    ∀ (ps : List Nat) (best : Nat),
      scanPositions ok improving j ps best =
        (match (ps.filter (fun p => p ≠ j)).find? ok with
         | some p => (p, true)
         | none => (lastD ((ps.filter (fun p => p ≠ j)).filter improving) best, false)) := by
  intro ps
  induction ps with
  | nil => intro best; rfl
  | cons p ps ih =>
    intro best
    by_cases hj : p = j
    · rw [show scanPositions ok improving j (p :: ps) best
          = scanPositions ok improving j ps best from by rw [scanPositions, if_pos hj]]
      rw [ih best]
      have : (p :: ps).filter (fun q => q ≠ j) = ps.filter (fun q => q ≠ j) := by
        rw [List.filter_cons_of_neg (by simpa using hj)]
      rw [this]
    · have hfil : (p :: ps).filter (fun q => q ≠ j) = p :: ps.filter (fun q => q ≠ j) := by
        rw [List.filter_cons_of_pos (by simpa using hj)]
      by_cases hok : ok p = true
      · rw [show scanPositions ok improving j (p :: ps) best = (p, true) from by
          rw [scanPositions, if_neg hj, if_pos hok]]
        rw [hfil, List.find?_cons_of_pos _ hok]
      · by_cases himp : improving p = true
        · rw [show scanPositions ok improving j (p :: ps) best
              = scanPositions ok improving j ps p from by
            rw [scanPositions, if_neg hj, if_neg (by simpa using hok), if_pos himp]]
          rw [ih p, hfil, List.find?_cons_of_neg _ (by simpa using hok),
            List.filter_cons_of_pos himp, lastD_cons]
        · rw [show scanPositions ok improving j (p :: ps) best
              = scanPositions ok improving j ps best from by
            rw [scanPositions, if_neg hj, if_neg (by simpa using hok),
              if_neg (by simpa using himp)]]
          rw [ih best, hfil, List.find?_cons_of_neg _ (by simpa using hok),
            List.filter_cons_of_neg (by simpa using himp)]

namespace RO

/-- Violation triples `(index, order, arrival)` collected at lines 483-487
from a route zipped with its simulated arrival times. -/
def collectViolations (route : List Order) (arrs : List Int) :
    List (Nat × Order × Int) :=
  (pyEnum (route.zip arrs)).filter (fun x => violB x.2.1 x.2.2)

/-- Count of violated stops in a route against a given arrival list (the
`sum(1 for ...)` expressions at lines 521-524). -/
def violCountWith (route : List Order) (arrs : List Int) : Nat :=
  ((route.zip arrs).filter (fun x => violB x.1 x.2)).length

/-- Count of violated stops against freshly simulated arrivals. -/
def violCount (dist : Order → Order → ℚ) (speed : ℚ)
    (route : List Order) (st : Int) : Nat :=
  violCountWith route (check_time_windows dist speed route st).2

/-- Severity key of the sort at line 493: lateness when late, else zero. -/
def sevKey (v : Nat × Order × Int) : Int :=
  if v.2.2 > (endSeconds v.2.1).getD 0 then v.2.2 - (endSeconds v.2.1).getD 0 else 0

/-- Relocation of a violated order: remove the first structurally equal
occurrence and reinsert at the trial position (lines 508-510). -/
def moveOrder (r : List Order) (v : Order) (p : Nat) : List Order :=
  (r.erase v).insertIdx p v

/-- Body of the per-violation repair step (lines 498-537): scan all trial
positions; if the chosen best position differs from the stop's original
index, apply the move, and return early (`Except.error`) when the moved
route is fully feasible. -/
def fix_step (dist : Order → Order → ℚ) (speed : ℚ) (st : Int)
    (staleArrs : List Int) (r : List Order) (v : Nat × Order × Int) :
    Except (List Order) (List Order) :=
  let curCount := violCountWith r staleArrs
  let s := scanPositions
    (fun p => (check_time_windows dist speed (moveOrder r v.2.1 p) st).1)
    (fun p => decide (violCount dist speed (moveOrder r v.2.1 p) st < curCount))
    v.1 (List.range r.length) v.1
  if s.1 ≠ v.1 then
    let r' := moveOrder r v.2.1 s.1
    if (check_time_windows dist speed r' st).1 then Except.error r' else Except.ok r'
  else Except.ok r

/-- Loop over the sorted violations (line 498), with `Except.error`
signalling the early `return fixed_route` at line 537. -/
def fixLoop (dist : Order → Order → ℚ) (speed : ℚ) (st : Int)
    (staleArrs : List Int) :
    List (Nat × Order × Int) → List Order → Except (List Order) (List Order)
  | [], r => Except.ok r
  | v :: vs, r =>
    match fix_step dist speed st staleArrs r v with
    | Except.error r' => Except.error r'
    | Except.ok r' => fixLoop dist speed st staleArrs vs r'

/-- Inner insertion sweep of the partition fallback (lines 552-559): walk a
copy of the windowless orders, appending each one whose tentative placement
keeps the route feasible (or leaves it windowless) and removing it from the
live list. -/
def insertNoTW (dist : Order → Order → ℚ) (speed : ℚ) (st : Int) :
    List Order → List Order × List Order → List Order × List Order
  | [], acc => acc
  | ntw :: rest, (final, live) =>
    if ntw ∈ final then insertNoTW dist speed st rest (final, live)
    else
      let test := final ++ [ntw]
      if (check_time_windows dist speed test st).1 || !(test.any has_time_window) then
        insertNoTW dist speed st rest (final ++ [ntw], live.erase ntw)
      else insertNoTW dist speed st rest (final, live)

/-- Outer sweep of the partition fallback (lines 548-559): append each
re-optimized windowed order, then try to place windowless ones. -/
def fallbackLoop (dist : Order → Order → ℚ) (speed : ℚ) (st : Int) :
    List Order → List Order × List Order → List Order × List Order
  | [], acc => acc
  | o :: os, (final, live) =>
    fallbackLoop dist speed st os (insertNoTW dist speed st live (final ++ [o], live))

/-- Method `fix_time_window_violations` (lines 469-566).  With no
violations the route is returned unchanged; otherwise the violations are
repaired in stable descending severity order, and if the loop finishes
without reaching a fully feasible route, the partitioned re-construction
fallback runs. -/
def fix_time_window_violations (dist : Order → Order → ℚ) (speed : ℚ)
    (route : List Order) (st : Int) : List Order :=
  let arrs := (check_time_windows dist speed route st).2
  let violations := collectViolations route arrs
  if violations = [] then route
  else
    let sorted := violations.mergeSort (fun a b => decide (sevKey b ≤ sevKey a))
    match fixLoop dist speed st arrs sorted route with
    | Except.error r => r
    | Except.ok fixedRoute =>
      let ww := fixedRoute.filter has_time_window
      let wow := fixedRoute.filter (fun o => !(has_time_window o))
      if ww.isEmpty then fixedRoute
      else
        let ow := (optimize_route dist speed ww st).1
        let acc := fallbackLoop dist speed st ow ([], wow)
        acc.1 ++ acc.2

end RO

/-! ## Embedding of `src/vrptw_manager.py` -/

namespace VM

/-- Order of `vrptw_manager.py` (lines 48-74): a deadline-only window kept
in minutes since midnight (`_end_minutes`), plus the delivered flag. -/
structure Order where
  id : Int
  address : String
  latitude : ℚ
  longitude : ℚ
  time_window_end : Option Int
  is_delivered : Bool
deriving DecidableEq, Repr

/-- Method `has_time_window` (line 76). -/
def has_time_window (o : Order) : Bool :=
  o.time_window_end.isSome

/-- Method `can_be_visited_before` (line 80). -/
def can_be_visited_before (o : Order) (t : Int) : Bool :=
  match o.time_window_end with
  | some e => decide (t ≤ e)
  | none => true

/-- Deadline key used by the seed selection (`o._end_minutes`); the default
is never read because the key is only applied to orders with a window. -/
def endKeyD (o : Order) : Int := (o.time_window_end).getD 0

/-- The `order_indices` dictionary of lines 276: id to position in the
original list, later occurrences overwriting earlier ones. -/
def lastIdxOfIdAux (oid : Int) : List Order → Nat → Nat → Nat
  | [], _, acc => acc
  | o :: rest, pos, acc =>
    lastIdxOfIdAux oid rest (pos + 1) (if o.id = oid then pos else acc)

def lastIdxOfId (orders : List Order) (oid : Int) : Nat :=
  lastIdxOfIdAux oid orders 0 0

/-- Greedy candidate score (lines 311-328): travel time plus a lateness
penalty `(arrival - end) * 100`, or an urgency bonus `-5` within 30
minutes of the deadline. -/
def vmScore (M : Nat → Nat → Int) (curIdx : Nat) (t : Int) (origIdx : Nat)
    (cand : Order) : Int :=
  let travel := M curIdx origIdx
  let arrival := t + travel
  travel + (match cand.time_window_end with
    | some e =>
      if arrival > e then (arrival - e) * 100
      else if arrival > e - 30 then -5
      else 0
    | none => 0)

/-- Junk order used only for `headD` in positions the Python code guards
by earlier returns. -/
def defaultOrder : Order := ⟨0, "", 0, 0, none, false⟩

/-- Seed selection of `optimize_route` (lines 290-295): the undelivered
order with the earliest `_end_minutes` among those carrying one (Python's
`min` keeps the first on ties), or the first undelivered order. -/
def vmSeed (undelivered : List Order) : Order :=
  match pickMin endKeyD (undelivered.filter has_time_window) with
  | some x => x
  | none => undelivered.headD defaultOrder

/-- Selection loop of `optimize_route` (lines 305-342): scan the
enumerated remaining orders, score each against the travel matrix through
the parallel list of original indices, pop the winner from both lists,
and advance the clock by the chosen travel time. -/
def vmLoop (M : Nat → Nat → Int) :
    Nat → List Order → List Order → List Nat → Nat → Int → List Order
  | 0, route, _, _, _, _ => route
  | fuel + 1, route, remaining, remIdxs, curIdx, t =>
    match remaining with
    | [] => route
    | _ :: _ =>
      match pickMin (fun pr : Nat × Order =>
          vmScore M curIdx t (remIdxs.getD pr.1 0) pr.2) (pyEnum remaining) with
      | none => route  -- unreachable: remaining is nonempty
      | some (p, best) =>
        let bIdx := remIdxs.getD p 0
        vmLoop M fuel (route ++ [best]) (remaining.eraseIdx p)
          (remIdxs.eraseIdx p) bIdx (t + M curIdx bIdx)

/-- Method `optimize_route` (lines 252-348).  Empty, singleton,
all-delivered and single-pending inputs return the list unchanged.
Otherwise: seed from the earliest deadline among undelivered orders
carrying one (first on ties; the first undelivered order when none
carries a deadline), greedy loop over the rest, delivered orders
appended at the end in their original relative list order. -/
def optimize_route (st : Int) (orders : List Order) (M : Nat → Nat → Int) :
    List Order :=
  match orders with
  | [] => []
  | [o] => [o]
  | _ :: _ :: _ =>
    let undelivered := orders.filter (fun o => !o.is_delivered)
    if undelivered = [] then orders
    else
      let undelivIdxs := undelivered.map (fun o => lastIdxOfId orders o.id)
      if undelivered.length = 1 then orders
      else
        let first := vmSeed undelivered
        let firstIdx := List.indexOf first undelivered
        let rem := undelivered.eraseIdx firstIdx
        let remIdxs := undelivIdxs.eraseIdx firstIdx
        let curIdx := lastIdxOfId orders first.id
        let route := vmLoop M rem.length [first] rem remIdxs curIdx st
        route ++ orders.filter (fun o => o.is_delivered)

/-- Search by id of `move_order` (lines 403-411): the first matching order
and its index. -/
def findWithIndexAux (oid : Int) : List Order → Nat → Option (Nat × Order)
  | [], _ => none
  | o :: rest, pos =>
    if o.id = oid then some (pos, o) else findWithIndexAux oid rest (pos + 1)

def findWithIndex (orders : List Order) (oid : Int) : Option (Nat × Order) :=
  findWithIndexAux oid orders 0

/-- Method `move_order` (lines 392-432): fails when the id is unknown or
the target index is out of bounds; succeeds without change when the order
already sits at the target; otherwise pops and reinserts. -/
def move_order (orders : List Order) (oid : Int) (newIdx : Int) :
    Bool × List Order :=
  match findWithIndex orders oid with
  | none => (false, orders)
  | some (ci, o) =>
    if newIdx < 0 ∨ (orders.length : Int) ≤ newIdx then (false, orders)
    else if (ci : Int) = newIdx then (true, orders)
    else (true, (orders.eraseIdx ci).insertIdx newIdx.toNat o)

/-- Method `mark_order_as_delivered` (lines 434-455): first matching order
is flagged; an already-delivered order is reported as success without any
change; an unknown id fails. -/
def mark_order_as_delivered : List Order → Int → Bool × List Order
  | [], _ => (false, [])
  | o :: rest, oid =>
    if o.id = oid then
      if o.is_delivered then (true, o :: rest)
      else (true, { o with is_delivered := true } :: rest)
    else
      let r := mark_order_as_delivered rest oid
      (r.1, o :: r.2)

/-- Count of delivered orders (completion totals). -/
def deliveredCount (orders : List Order) : Nat :=
  (orders.filter (fun o => o.is_delivered)).length

/-- Bool test for the presence of an id. -/
def hasId (orders : List Order) (oid : Int) : Bool :=
  orders.any (fun o => decide (o.id = oid))

/-- Method `re_optimize` (lines 457-471): the stored order list is
replaced by the optimizer's output. -/
def re_optimize (orders : List Order) (M : Nat → Nat → Int) (st : Int) :
    List Order :=
  optimize_route st orders M

end VM

/-! ## Feasibility and the repairer's no-violation guard -/

namespace RO

theorem checkAux_no_viol (dist : Order → Order → ℚ) (speed : ℚ) :
    ∀ (l : List Order) (prev : Order) (t : Int),
      (checkAux dist speed prev t l).1 = true →
      ∀ x ∈ l.zip (checkAux dist speed prev t l).2, violB x.1 x.2 = false := by
  intro l
  induction l with
  | nil =>
    intro prev t _ x hx
    simp at hx
  | cons o rest ih =>
    intro prev t h x hx
    simp only [checkAux] at h hx
    rw [Bool.and_eq_true] at h
    rw [List.zip_cons_cons, List.mem_cons] at hx
    rcases hx with rfl | hx
    · simpa using h.1
    · exact ih o _ h.2 x hx

theorem check_no_viol (dist : Order → Order → ℚ) (speed : ℚ)
    (route : List Order) (st : Int)
    (h : (check_time_windows dist speed route st).1 = true) :
    ∀ x ∈ route.zip (check_time_windows dist speed route st).2,
      violB x.1 x.2 = false := by
  match route with
  | [] => intro x hx; simp at hx
  | o :: rest =>
    intro x hx
    simp only [check_time_windows] at h hx
    rw [Bool.and_eq_true] at h
    rw [List.zip_cons_cons, List.mem_cons] at hx
    rcases hx with rfl | hx
    · simpa using h.1
    · exact checkAux_no_viol dist speed rest o _ h.2 x hx

theorem pyEnumFrom_mem_snd {α : Type} :
    ∀ (l : List α) (n : Nat) (y : Nat × α), y ∈ pyEnumFrom n l → y.2 ∈ l := by
  intro l
  induction l with
  | nil => intro n y hy; simp [pyEnumFrom] at hy
  | cons x xs ih =>
    intro n y hy
    simp only [pyEnumFrom, List.mem_cons] at hy
    rcases hy with rfl | hy
    · exact List.mem_cons_self x xs
    · exact List.mem_cons_of_mem _ (ih (n + 1) y hy)

theorem collectViolations_eq_nil (route : List Order) (arrs : List Int)
    (h : ∀ x ∈ route.zip arrs, violB x.1 x.2 = false) :
    collectViolations route arrs = [] := by
  rw [collectViolations, List.filter_eq_nil_iff]
  intro y hy
  have := h y.2 (pyEnumFrom_mem_snd _ 0 y hy)
  simp [this]

theorem fix_of_feasible (dist : Order → Order → ℚ) (speed : ℚ)
    (route : List Order) (st : Int)
    (h : (check_time_windows dist speed route st).1 = true) :
    fix_time_window_violations dist speed route st = route := by
  have hnil : collectViolations route
      (check_time_windows dist speed route st).2 = [] :=
    collectViolations_eq_nil _ _ (check_no_viol dist speed route st h)
  simp only [fix_time_window_violations]
  rw [if_pos hnil]

end RO

/-! ## Permutation lemmas for the greedy loops -/

theorem pyEnumFrom_get? {α : Type} :
    ∀ (l : List α) (n p : Nat) (a : α),
      (p, a) ∈ pyEnumFrom n l → n ≤ p ∧ l.get? (p - n) = some a := by
  intro l
  induction l with
  | nil => intro n p a h; simp [pyEnumFrom] at h
  | cons x xs ih =>
    intro n p a h
    simp only [pyEnumFrom, List.mem_cons, Prod.mk.injEq] at h
    rcases h with ⟨rfl, rfl⟩ | h
    · exact ⟨Nat.le_refl _, by simp⟩
    · obtain ⟨hle, hget⟩ := ih (n + 1) p a h
      refine ⟨Nat.le_of_succ_le hle, ?_⟩
      have : p - n = (p - (n + 1)) + 1 := by omega
      rw [this, List.get?_cons_succ]
      exact hget

theorem pyEnum_get? {α : Type} (l : List α) (p : Nat) (a : α)
    (h : (p, a) ∈ pyEnum l) : l.get? p = some a := by
  have := (pyEnumFrom_get? l 0 p a h).2
  simpa using this

theorem cons_eraseIdx_perm {α : Type} :
    ∀ (l : List α) (p : Nat) (a : α), l.get? p = some a → List.Perm (a :: l.eraseIdx p) l := by
  intro l
  induction l with
  | nil => intro p a h; simp at h
  | cons x xs ih =>
    intro p a h
    match p with
    | 0 =>
      simp only [List.get?_cons_zero, Option.some.injEq] at h
      subst h
      exact List.Perm.refl _
    | p + 1 =>
      rw [List.get?_cons_succ] at h
      have h1 : List.Perm (a :: x :: xs.eraseIdx p) (x :: a :: xs.eraseIdx p) :=
        List.Perm.swap x a _
      have h2 : List.Perm (x :: a :: xs.eraseIdx p) (x :: xs) := (ih p a h).cons x
      exact h1.trans h2

theorem erase_eq_eraseIdx_indexOf {α : Type} [DecidableEq α] :
    ∀ (l : List α) (a : α), l.erase a = l.eraseIdx (List.indexOf a l) := by
  intro l
  induction l with
  | nil => intro a; rfl
  | cons x xs ih =>
    intro a
    by_cases hx : x = a
    · subst hx
      rw [List.erase_cons_head, List.indexOf_cons_self]
      rfl
    · rw [List.erase_cons_tail (by simpa using hx), List.indexOf_cons_ne _ hx]
      rw [List.eraseIdx_cons_succ, ih]

namespace RO

theorem roLoop_perm (dist : Order → Order → ℚ) (speed : ℚ) :
    ∀ (fuel : Nat) (route : List Order) (last : Order)
      (remaining : List Order) (t : Int),
      remaining.length ≤ fuel →
      List.Perm (roLoop dist speed fuel route last remaining t) (route ++ remaining) := by
  intro fuel
  induction fuel with
  | zero =>
    intro route last remaining t h
    have hnil : remaining = [] := List.eq_nil_of_length_eq_zero (Nat.le_zero.mp h)
    subst hnil
    simp [roLoop]
  | succ fuel ih =>
    intro route last remaining t h
    match remaining with
    | [] => simp [roLoop]
    | r :: rs =>
      have hsome := pickMin_isSome (roScore dist speed last t) (l := r :: rs) (by simp)
      obtain ⟨best, hbest⟩ := Option.isSome_iff_exists.mp hsome
      have hmem : best ∈ r :: rs := pickMin_mem _ hbest
      have hperm : List.Perm (r :: rs) (best :: (r :: rs).erase best) := List.perm_cons_erase hmem
      have hlen : ((r :: rs).erase best).length ≤ fuel := by
        have hl := hperm.length_eq
        simp only [List.length_cons] at hl h ⊢
        omega
      simp only [roLoop, hbest]
      refine (ih _ _ _ _ hlen).trans ?_
      rw [List.append_assoc]
      exact List.Perm.append_left route hperm.symm

theorem roLoop_extends (dist : Order → Order → ℚ) (speed : ℚ) :
    ∀ (fuel : Nat) (route : List Order) (last : Order) (rem : List Order)
      (t : Int),
      ∃ tl, roLoop dist speed fuel route last rem t = route ++ tl := by
  intro fuel
  induction fuel with
  | zero =>
    intro route last rem t
    exact ⟨[], by simp only [roLoop, List.append_nil]⟩
  | succ fuel ih =>
    intro route last rem t
    match rem with
    | [] => exact ⟨[], by simp only [roLoop, List.append_nil]⟩
    | r :: rs =>
      cases hpick : pickMin (roScore dist speed last t) (r :: rs) with
      | none => exact ⟨[], by simp only [roLoop, hpick, List.append_nil]⟩
      | some best =>
        obtain ⟨tl, htl⟩ := ih (route ++ [best]) best ((r :: rs).erase best)
          (match startSeconds best with
            | some s =>
              if has_time_window best ∧ t + travelT dist speed last best < s then s
              else t + travelT dist speed last best
            | none => t + travelT dist speed last best)
        refine ⟨best :: tl, ?_⟩
        simp only [roLoop, hpick, htl, List.append_assoc, List.singleton_append]

/-- The greedy pass keeps the seed at the front of the route. -/
theorem roLoop_head? (dist : Order → Order → ℚ) (speed : ℚ) (fuel : Nat)
    (x : Order) (route : List Order) (last : Order) (rem : List Order)
    (t : Int) :
    (roLoop dist speed fuel (x :: route) last rem t).head? = some x := by
  obtain ⟨tl, htl⟩ := roLoop_extends dist speed fuel (x :: route) last rem t
  rw [htl]
  rfl

theorem roSeed_mem {l : List Order} (h : l ≠ []) : roSeed l ∈ l := by
  rw [roSeed]
  cases hpick : pickMin (fun o => (startSeconds o).getD 0)
      (l.filter has_time_window) with
  | none =>
    obtain ⟨y, ys, hys⟩ := List.exists_cons_of_ne_nil h
    rw [hys]
    simp
  | some x => exact List.mem_of_mem_filter (pickMin_mem _ hpick)

theorem ro_optimize_route_perm (dist : Order → Order → ℚ) (speed : ℚ)
    (orders : List Order) (st : Int) :
    List.Perm (optimize_route dist speed orders st).1 orders := by
  match orders with
  | [] => exact List.Perm.refl _
  | [o] => exact List.Perm.refl _
  | a :: b :: rest =>
    simp only [optimize_route]
    refine (roLoop_perm dist speed _ _ _ _ _ (Nat.le_refl _)).trans ?_
    exact (List.perm_cons_erase (roSeed_mem (l := a :: b :: rest) (by simp))).symm

end RO

namespace VM

theorem vmLoop_perm (M : Nat → Nat → Int) :
    ∀ (fuel : Nat) (route remaining : List Order) (remIdxs : List Nat)
      (curIdx : Nat) (t : Int),
      remaining.length ≤ fuel →
      List.Perm (vmLoop M fuel route remaining remIdxs curIdx t) (route ++ remaining) := by
  intro fuel
  induction fuel with
  | zero =>
    intro route remaining remIdxs curIdx t h
    have hnil : remaining = [] := List.eq_nil_of_length_eq_zero (Nat.le_zero.mp h)
    subst hnil
    simp [vmLoop]
  | succ fuel ih =>
    intro route remaining remIdxs curIdx t h
    match remaining with
    | [] => simp [vmLoop]
    | r :: rs =>
      have hsome := pickMin_isSome (fun pr : Nat × Order =>
          vmScore M curIdx t (remIdxs.getD pr.1 0) pr.2)
        (l := pyEnum (r :: rs)) (by simp [pyEnum, pyEnumFrom])
      obtain ⟨pb, hpb⟩ := Option.isSome_iff_exists.mp hsome
      obtain ⟨p, best⟩ := pb
      have hget : (r :: rs).get? p = some best :=
        pyEnum_get? _ _ _ (pickMin_mem _ hpb)
      have hperm : List.Perm (best :: (r :: rs).eraseIdx p) (r :: rs) :=
        cons_eraseIdx_perm _ p best hget
      have hlen : ((r :: rs).eraseIdx p).length ≤ fuel := by
        have hl := hperm.length_eq
        simp only [List.length_cons] at hl h ⊢
        omega
      simp only [vmLoop, hpb]
      refine (ih _ _ _ _ _ hlen).trans ?_
      rw [List.append_assoc]
      exact List.Perm.append_left route hperm

theorem undelivered_delivered_perm (orders : List Order) :
    List.Perm (orders.filter (fun o => !o.is_delivered)
      ++ orders.filter (fun o => o.is_delivered)) orders := by
  refine List.Perm.trans List.perm_append_comm ?_
  exact List.filter_append_perm (fun o => o.is_delivered) orders

theorem vmSeed_mem {l : List Order} (h : l ≠ []) : vmSeed l ∈ l := by
  rw [vmSeed]
  cases hpick : pickMin endKeyD (l.filter has_time_window) with
  | none =>
    obtain ⟨y, ys, hys⟩ := List.exists_cons_of_ne_nil h
    rw [hys]
    simp
  | some x => exact List.mem_of_mem_filter (pickMin_mem _ hpick)

/-- The main greedy pass emits a permutation of the undelivered orders. -/
theorem vm_mainRoute_perm (M : Nat → Nat → Int) (st : Int)
    (U : List Order) (remIdxs : List Nat) (curIdx : Nat) (hU : U ≠ []) :
    List.Perm (vmLoop M (U.eraseIdx (List.indexOf (vmSeed U) U)).length
      [vmSeed U] (U.eraseIdx (List.indexOf (vmSeed U) U)) remIdxs curIdx st) U := by
  refine (vmLoop_perm M _ _ _ _ _ _ (Nat.le_refl _)).trans ?_
  rw [← erase_eq_eraseIdx_indexOf]
  exact (List.perm_cons_erase (vmSeed_mem hU)).symm

theorem vm_optimize_route_perm (st : Int) (orders : List Order)
    (M : Nat → Nat → Int) :
    List.Perm (optimize_route st orders M) orders := by
  match orders with
  | [] => exact List.Perm.refl _
  | [o] => exact List.Perm.refl _
  | a :: b :: rest =>
    simp only [optimize_route]
    by_cases hU : (a :: b :: rest).filter (fun o => !o.is_delivered) = []
    · rw [if_pos hU]
    · rw [if_neg hU]
      by_cases hLen : ((a :: b :: rest).filter (fun o => !o.is_delivered)).length = 1
      · rw [if_pos hLen]
      · rw [if_neg hLen]
        refine List.Perm.trans
          (List.Perm.append_right _ (vm_mainRoute_perm M st _ _ _ hU)) ?_
        exact undelivered_delivered_perm (a :: b :: rest)

end VM

/-- C1: for every input list, `optimize_route` returns a complete
permutation of its input and never fails — in the `route_optimizer.py`
variant the first component of the returned triple is a permutation of
the orders for every distance function, speed and start time, and in the
`vrptw_manager.py` variant the returned list is a permutation of the
orders for every travel-time matrix, whether or not any time window is
honored. -/
theorem C1_route_construction_permutation :
    (∀ (dist : RO.Order → RO.Order → ℚ) (speed : ℚ)
        (orders : List RO.Order) (st : Int),
        List.Perm (RO.optimize_route dist speed orders st).1 orders) ∧
    (∀ (st : Int) (orders : List VM.Order) (M : Nat → Nat → Int),
        List.Perm (VM.optimize_route st orders M) orders) :=
  ⟨RO.ro_optimize_route_perm, VM.vm_optimize_route_perm⟩

/-! ## Claims C2, C3, C5: seed selection, the concrete scenario, and
re-optimization -/

namespace VM

theorem vmLoop_extends (M : Nat → Nat → Int) :
    ∀ (fuel : Nat) (route remaining : List Order) (remIdxs : List Nat)
      (curIdx : Nat) (t : Int),
      ∃ tl, vmLoop M fuel route remaining remIdxs curIdx t = route ++ tl := by
  intro fuel
  induction fuel with
  | zero =>
    intro route rem remIdxs c t
    exact ⟨[], by simp only [vmLoop, List.append_nil]⟩
  | succ fuel ih =>
    intro route rem remIdxs c t
    match rem with
    | [] => exact ⟨[], by simp only [vmLoop, List.append_nil]⟩
    | r :: rs =>
      cases hpick : pickMin (fun pr : Nat × Order =>
          vmScore M c t (remIdxs.getD pr.1 0) pr.2) (pyEnum (r :: rs)) with
      | none => exact ⟨[], by simp only [vmLoop, hpick, List.append_nil]⟩
      | some pb =>
        obtain ⟨p, best⟩ := pb
        obtain ⟨tl, htl⟩ := ih (route ++ [best]) ((r :: rs).eraseIdx p)
          (remIdxs.eraseIdx p) (remIdxs.getD p 0) (t + M c (remIdxs.getD p 0))
        refine ⟨best :: tl, ?_⟩
        simp only [vmLoop, hpick, htl, List.append_assoc, List.singleton_append]

/-- The greedy pass keeps the seed at the front of the route. -/
theorem vmLoop_head? (M : Nat → Nat → Int) (fuel : Nat) (x : Order)
    (route rem : List Order) (remIdxs : List Nat) (c : Nat) (t : Int) :
    (vmLoop M fuel (x :: route) rem remIdxs c t).head? = some x := by
  obtain ⟨tl, htl⟩ := vmLoop_extends M fuel (x :: route) rem remIdxs c t
  rw [htl]
  rfl

end VM

/-- Concrete stops for the C2 counterexample.  In the `vrptw_manager`
variant: a deadline tie broken by list position rather than by lowest
id, and the windowless fallback likewise taking the first listed stop.
In the `route_optimizer` variant: the seed is chosen by earliest window
START, so a stop with a later deadline but an earlier opening beats the
earliest-deadline stop. -/
def vmB1 : VM.Order := ⟨1, "B1", 0, 0, some 600, false⟩

def vmB2 : VM.Order := ⟨2, "B2", 0, 0, some 600, false⟩

def vmA1 : VM.Order := ⟨1, "A1", 0, 0, none, false⟩

def vmA2 : VM.Order := ⟨2, "A2", 0, 0, none, false⟩

/-- Uniform 15-minute travel matrix. -/
def M15 : Nat → Nat → Int := fun i j => if i = j then 0 else 15

def roX : RO.Order := ⟨1, "X", 0, 0, some 100, some 900⟩

def roY : RO.Order := ⟨2, "Y", 0, 0, some 200, some 300⟩

/-- C2, counterexample.  `vrptw_manager` variant: with two pending stops
of equal deadline 10:00 listed as ids [2, 1], route construction seeds
the stop with id 2 (first in the list), not the one with the lowest id;
with two windowless stops listed as ids [2, 1] it likewise seeds id 2,
though the claim demands the lowest id (1) in both situations.
`route_optimizer` variant (lines 402-413): with X (window 100-900) and
Y (window 200-300), the seed is X — the earliest window START — although
the claim demands the stop with the earliest `window.end`, which is Y. -/
theorem C2_counterexample :
    ((VM.optimize_route 480 [vmB2, vmB1] M15).head? = some vmB2 ∧
     vmB2.id = 2 ∧ vmB1.id = 1 ∧ vmB1.time_window_end = vmB2.time_window_end ∧
     vmB1.is_delivered = false ∧ vmB2.is_delivered = false ∧
     (VM.optimize_route 480 [vmB2, vmB1] M15).head? ≠ some vmB1 ∧
     (VM.optimize_route 480 [vmA2, vmA1] M15).head? = some vmA2 ∧
     vmA2.id = 2 ∧ vmA1.id = 1 ∧
     vmA1.time_window_end = none ∧ vmA2.time_window_end = none ∧
     (VM.optimize_route 480 [vmA2, vmA1] M15).head? ≠ some vmA1) ∧
    (roX.time_window_start = some 100 ∧ roX.time_window_end = some 900 ∧
     roY.time_window_start = some 200 ∧ roY.time_window_end = some 300 ∧
     (RO.optimize_route (fun _ _ => 0) 3600 [roX, roY] 0).1.head? = some roX ∧
     (RO.optimize_route (fun _ _ => 0) 3600 [roX, roY] 0).1.head? ≠ some roY) := by
  have hro : (RO.optimize_route (fun _ _ => 0) 3600 [roX, roY] 0).1.head?
      = some (RO.roSeed [roX, roY]) := by
    simp only [RO.optimize_route]
    exact RO.roLoop_head? _ _ _ _ _ _ _ _
  have hseed : RO.roSeed [roX, roY] = roX := by decide
  refine ⟨by decide, rfl, rfl, rfl, rfl, ?_, ?_⟩
  · rw [hro, hseed]
  · rw [hro, hseed]
    decide

/-- C2, amended: for every non-empty pending-only stop list, the seed
(the first stop of the constructed route) is chosen by list position on
ties and never by lowest id, and the two variants use different keys.
In the `vrptw_manager` variant the seed is, among the stops carrying a
deadline, the first-listed one attaining the earliest `window.end`, or
the first stop of the list when no stop carries a deadline.  In the
`route_optimizer` variant the seed is, among the stops carrying a full
window (`window.start` set — deadline-only stops are excluded), the
first-listed one attaining the earliest `window.START`, or the first
stop of the list when none has a window. -/
theorem C2_amended_seed_selection :
    (∀ (st : Int) (orders : List VM.Order) (M : Nat → Nat → Int),
      orders ≠ [] → (∀ o ∈ orders, o.is_delivered = false) →
      (orders.filter VM.has_time_window ≠ [] →
        (VM.optimize_route st orders M).head? =
          (orders.filter VM.has_time_window).find?
            (isMinOver VM.endKeyD (orders.filter VM.has_time_window))) ∧
      (orders.filter VM.has_time_window = [] →
        (VM.optimize_route st orders M).head? = orders.head?)) ∧
    (∀ (dist : RO.Order → RO.Order → ℚ) (speed : ℚ) (orders : List RO.Order)
        (st : Int),
      orders ≠ [] →
      (orders.filter RO.has_time_window ≠ [] →
        (RO.optimize_route dist speed orders st).1.head? =
          (orders.filter RO.has_time_window).find?
            (isMinOver (fun o => (RO.startSeconds o).getD 0)
              (orders.filter RO.has_time_window))) ∧
      (orders.filter RO.has_time_window = [] →
        (RO.optimize_route dist speed orders st).1.head? = orders.head?)) := by
  constructor
  · intro st orders M hne hpend
    match orders with
    | [] => exact absurd rfl hne
    | [o] =>
      constructor
      · intro hwws
        cases hTW : VM.has_time_window o with
        | false => exact absurd (by simp [List.filter_cons, hTW]) hwws
        | true =>
          have hfil : ([o] : List VM.Order).filter VM.has_time_window = [o] := by
            simp [List.filter_cons, hTW]
          simp only [VM.optimize_route, hfil]
          rw [List.find?_cons_of_pos _ (by simp [isMinOver])]
          rfl
      · intro _
        simp only [VM.optimize_route]
    | a :: b :: rest =>
      have Hu : (a :: b :: rest).filter (fun o => !o.is_delivered) = a :: b :: rest :=
        List.filter_eq_self.mpr (fun o ho => by rw [hpend o ho]; rfl)
      have hDel : (a :: b :: rest).filter (fun o => o.is_delivered) = [] :=
        List.filter_eq_nil_iff.mpr (fun o ho => by rw [hpend o ho]; simp)
      have hhead : (VM.optimize_route st (a :: b :: rest) M).head?
          = some (VM.vmSeed (a :: b :: rest)) := by
        simp only [VM.optimize_route]
        rw [Hu, if_neg (by simp : ¬(a :: b :: rest = [])),
          if_neg (by simp only [List.length_cons]; omega : ¬(a :: b :: rest).length = 1),
          hDel, List.append_nil]
        exact VM.vmLoop_head? M _ _ _ _ _ _ _
      constructor
      · intro hwws
        rw [hhead]
        obtain ⟨w, ws, hws⟩ := List.exists_cons_of_ne_nil hwws
        rw [VM.vmSeed]
        cases hpick : pickMin VM.endKeyD
            ((a :: b :: rest).filter VM.has_time_window) with
        | none =>
          rw [hws] at hpick
          have := pickMin_isSome VM.endKeyD (l := w :: ws) (by simp)
          rw [hpick] at this
          cases this
        | some x =>
          rw [hws] at hpick ⊢
          rw [← pickMin_eq_find, hpick]
      · intro hwws
        rw [hhead, VM.vmSeed, hwws]
        rfl
  · intro dist speed orders st hne
    match orders with
    | [] => exact absurd rfl hne
    | [o] =>
      constructor
      · intro hwws
        cases hTW : RO.has_time_window o with
        | false => exact absurd (by simp [List.filter_cons, hTW]) hwws
        | true =>
          have hfil : ([o] : List RO.Order).filter RO.has_time_window = [o] := by
            simp [List.filter_cons, hTW]
          simp only [RO.optimize_route, hfil]
          rw [List.find?_cons_of_pos _ (by simp [isMinOver])]
          rfl
      · intro _
        simp only [RO.optimize_route]
    | a :: b :: rest =>
      have hhead : (RO.optimize_route dist speed (a :: b :: rest) st).1.head?
          = some (RO.roSeed (a :: b :: rest)) := by
        simp only [RO.optimize_route]
        exact RO.roLoop_head? dist speed _ _ _ _ _ _
      constructor
      · intro hwws
        rw [hhead]
        obtain ⟨w, ws, hws⟩ := List.exists_cons_of_ne_nil hwws
        rw [RO.roSeed]
        cases hpick : pickMin (fun o => (RO.startSeconds o).getD 0)
            ((a :: b :: rest).filter RO.has_time_window) with
        | none =>
          rw [hws] at hpick
          have := pickMin_isSome (fun o => (RO.startSeconds o).getD 0)
            (l := w :: ws) (by simp)
          rw [hpick] at this
          cases this
        | some x =>
          rw [hws] at hpick ⊢
          rw [← pickMin_eq_find, hpick]
      · intro hwws
        rw [hhead, RO.roSeed, hwws]
        rfl

/-- C2, witness for the amended theorem: the deadline-tie and windowless
inputs of the `vrptw_manager` variant and the start-keyed input of the
`route_optimizer` variant. -/
theorem C2_amended_witness :
    (VM.optimize_route 480 [vmB2, vmB1] M15).head? =
      (([vmB2, vmB1] : List VM.Order).filter VM.has_time_window).find?
        (isMinOver VM.endKeyD (([vmB2, vmB1] : List VM.Order).filter VM.has_time_window)) ∧
    (VM.optimize_route 480 [vmA2, vmA1] M15).head? =
      ([vmA2, vmA1] : List VM.Order).head? ∧
    (RO.optimize_route (fun _ _ => 0) 3600 [roX, roY] 0).1.head? =
      (([roX, roY] : List RO.Order).filter RO.has_time_window).find?
        (isMinOver (fun o => (RO.startSeconds o).getD 0)
          (([roX, roY] : List RO.Order).filter RO.has_time_window)) :=
  ⟨(C2_amended_seed_selection.1 480 [vmB2, vmB1] M15 (by decide) (by decide)).1
      (by decide),
   (C2_amended_seed_selection.1 480 [vmA2, vmA1] M15 (by decide) (by decide)).2
      (by decide),
   (C2_amended_seed_selection.2 (fun _ _ => 0) 3600 [roX, roY] 0 (by decide)).1
      (by decide)⟩


/-- Stops of the spec's concrete scenario: A without a window, B with
deadline 10:00, C with deadline 9:30 (minutes for the VM variant,
seconds for the RO variant's feasibility check). -/
def vmA3 : VM.Order := ⟨1, "A", 0, 0, none, false⟩

def vmB3 : VM.Order := ⟨2, "B", 0, 0, some 600, false⟩

def vmC3 : VM.Order := ⟨3, "C", 0, 0, some 570, false⟩

def roA3 : RO.Order := ⟨1, "A", 0, 0, none, none⟩

def roB3 : RO.Order := ⟨2, "B", 0, 0, none, some 36000⟩

def roC3 : RO.Order := ⟨3, "C", 0, 0, none, some 34200⟩

/-- Uniform pairwise distance of 900 km (15 minutes at speed 3600 km/h). -/
def roDistU : RO.Order → RO.Order → ℚ := fun a b => if a.id = b.id then 0 else 900

/-- C3, counterexample: on input order [A, B, C] with a uniform
15-minute matrix and start 08:00, route construction produces C, A, B —
not the claimed C, B, A (the greedy tie between A and B at score 15 goes
to A, the earlier-listed candidate). -/
theorem C3_counterexample :
    VM.optimize_route 480 [vmA3, vmB3, vmC3] M15 = [vmC3, vmA3, vmB3] ∧
    VM.optimize_route 480 [vmA3, vmB3, vmC3] M15 ≠ [vmC3, vmB3, vmA3] := by
  decide

/-- C3, amended: the constructed order is C, A, B (earliest-deadline seed
C first, then the tie at score 15 broken by input position), and the
`route_optimizer` feasibility check on that order with uniform 15-minute
travel and start 08:00 reports `all_feasible = true` with arrivals
08:00, 08:15, 08:30 (the deadline-only stops carry no checked window in
that variant, and every arrival also meets its deadline). -/
theorem C3_amended_scenario :
    VM.optimize_route 480 [vmA3, vmB3, vmC3] M15 = [vmC3, vmA3, vmB3] ∧
    RO.check_time_windows roDistU 3600 [roC3, roA3, roB3] 28800 =
      (true, [28800, 29700, 30600]) := by
  constructor
  · decide
  · norm_num [RO.check_time_windows, RO.checkAux, RO.clampW, RO.violB,
      RO.can_be_visited_at, RO.has_time_window, RO.startSeconds, RO.endSeconds,
      RO.travelT, pyInt, roDistU, roA3, roB3, roC3]

/-- Delivered and pending stops for the C5 counterexample. -/
def vmD : VM.Order := ⟨1, "D", 0, 0, none, true⟩

def vmP : VM.Order := ⟨2, "P", 0, 0, none, false⟩

def vmP2 : VM.Order := ⟨3, "P2", 0, 0, none, false⟩

/-- C5, counterexample: with one delivered stop listed before a single
pending stop, `re_optimize` returns the list unchanged — the delivered
stop stays BEFORE the pending one instead of being placed after the
optimized pending sequence (the single-pending early return at lines
281-282 skips the reordering). -/
theorem C5_counterexample :
    VM.re_optimize [vmD, vmP] (fun _ _ => 0) 480 = [vmD, vmP] ∧
    vmD.is_delivered = true ∧ vmP.is_delivered = false ∧
    VM.re_optimize [vmD, vmP] (fun _ _ => 0) 480 ≠ [vmP, vmD] := by
  decide

/-- C5, amended: whenever at least two stops are pending, `re_optimize`
returns a permutation of the pending stops followed by the delivered
stops unchanged in their existing relative order; with fewer than two
pending stops the stored list is returned entirely unchanged (delivered
stops keep their current positions, even before pending ones). -/
theorem C5_amended_reoptimize (orders : List VM.Order)
    (M : Nat → Nat → Int) (st : Int) :
    (2 ≤ (orders.filter (fun o => !o.is_delivered)).length →
      ∃ p, VM.re_optimize orders M st =
          p ++ orders.filter (fun o => o.is_delivered) ∧
        List.Perm p (orders.filter (fun o => !o.is_delivered))) ∧
    ((orders.filter (fun o => !o.is_delivered)).length < 2 →
      VM.re_optimize orders M st = orders) := by
  match orders with
  | [] => exact ⟨fun h => by simp at h, fun _ => rfl⟩
  | [o] =>
    constructor
    · intro h
      have hle := List.length_filter_le (fun o => !o.is_delivered) [o]
      simp only [List.length_cons, List.length_nil] at hle
      omega
    · intro _
      rfl
  | a :: b :: rest =>
    constructor
    · intro h2
      have hU : (a :: b :: rest).filter (fun o => !o.is_delivered) ≠ [] := by
        intro hnil
        rw [hnil] at h2
        simp at h2
      have hLen : ¬((a :: b :: rest).filter (fun o => !o.is_delivered)).length = 1 := by
        omega
      simp only [VM.re_optimize, VM.optimize_route]
      rw [if_neg hU, if_neg hLen]
      exact ⟨_, rfl, VM.vm_mainRoute_perm M st _ _ _ hU⟩
    · intro hlt
      by_cases hU : (a :: b :: rest).filter (fun o => !o.is_delivered) = []
      · simp only [VM.re_optimize, VM.optimize_route]
        rw [if_pos hU]
      · have hLen : ((a :: b :: rest).filter (fun o => !o.is_delivered)).length = 1 := by
          have : (a :: b :: rest).filter (fun o => !o.is_delivered) ≠ [] := hU
          have h1 : 1 ≤ ((a :: b :: rest).filter (fun o => !o.is_delivered)).length := by
            cases hfil : (a :: b :: rest).filter (fun o => !o.is_delivered) with
            | nil => exact absurd hfil hU
            | cons x xs => simp
          omega
        simp only [VM.re_optimize, VM.optimize_route]
        rw [if_neg hU, if_pos hLen]

/-- C5, witness for the amended theorem: the two-pending branch on
[P, P2] and the unchanged branch on [D, P]. -/
theorem C5_amended_witness :
    (∃ p, VM.re_optimize [vmP, vmP2] (fun _ _ => 0) 480 =
        p ++ ([vmP, vmP2] : List VM.Order).filter (fun o => o.is_delivered) ∧
      List.Perm p (([vmP, vmP2] : List VM.Order).filter (fun o => !o.is_delivered))) ∧
    VM.re_optimize [vmD, vmP] (fun _ _ => 0) 480 = [vmD, vmP] :=
  ⟨(C5_amended_reoptimize [vmP, vmP2] (fun _ _ => 0) 480).1 (by decide),
   (C5_amended_reoptimize [vmD, vmP] (fun _ _ => 0) 480).2 (by decide)⟩

/-! ## Claim C4: the local-relocation phase of the repairer -/

/-- Stops of the C4 scenario, on a line (distances are latitude
differences, realizable as meridian coordinates), speed 3600 km/h so a
distance of `n` km takes `n` seconds. -/
def ro1 : RO.Order := ⟨1, "", 16, 0, some 31, some 45⟩

def ro2 : RO.Order := ⟨2, "", 13, 0, some 4, some 29⟩

def ro3 : RO.Order := ⟨3, "", 5, 0, some 20, some 31⟩

def ro4 : RO.Order := ⟨4, "", 24, 0, some 38, some 54⟩

def r4 : List RO.Order := [ro1, ro2, ro3, ro4]

def dLat4 : RO.Order → RO.Order → ℚ := fun a b => |a.latitude - b.latitude|

/-- C4, amended: the per-violation relocation step accepts the FIRST trial
position that makes the whole route fully feasible and returns early;
when no position does, it keeps the LAST position, in scan order, that
strictly lowers the violated-stop count below the current count computed
against the stale pre-repair arrivals (positions are never compared
against each other), leaving the stop in place when no position improves,
and repair continues with the next violated stop. -/
theorem C4_amended_relocation_step (dist : RO.Order → RO.Order → ℚ)
    (speed : ℚ) (st : Int) (staleArrs : List Int) (r : List RO.Order)
    (v : Nat × RO.Order × Int) :
    RO.fix_step dist speed st staleArrs r v =
      (match ((List.range r.length).filter (fun p => p ≠ v.1)).find?
          (fun p => (RO.check_time_windows dist speed
            (RO.moveOrder r v.2.1 p) st).1) with
       | some p => Except.error (RO.moveOrder r v.2.1 p)
       | none =>
         let q := lastD (((List.range r.length).filter (fun p => p ≠ v.1)).filter
           (fun p => decide (RO.violCount dist speed (RO.moveOrder r v.2.1 p) st
             < RO.violCountWith r staleArrs))) v.1
         if q = v.1 then Except.ok r else Except.ok (RO.moveOrder r v.2.1 q)) := by
  simp only [RO.fix_step, scanPositions_eq]
  cases hfind : ((List.range r.length).filter (fun p => p ≠ v.1)).find?
      (fun p => (RO.check_time_windows dist speed (RO.moveOrder r v.2.1 p) st).1) with
  | some p =>
    have hp_mem : p ∈ (List.range r.length).filter (fun p => p ≠ v.1) :=
      List.mem_of_find?_eq_some hfind
    have hpne : p ≠ v.1 := by
      have := (List.mem_filter.mp hp_mem).2
      simpa using this
    have hok : (RO.check_time_windows dist speed (RO.moveOrder r v.2.1 p) st).1
        = true := by
      have := List.find?_some hfind
      simpa using this
    simp only [hfind]
    rw [if_pos hpne, if_pos hok]
  | none =>
    simp only [hfind]
    by_cases hqv : lastD (((List.range r.length).filter (fun p => p ≠ v.1)).filter
        (fun p => decide (RO.violCount dist speed (RO.moveOrder r v.2.1 p) st
          < RO.violCountWith r staleArrs))) v.1 = v.1
    · rw [if_neg (by simpa using hqv), if_pos hqv]
    · rcases lastD_mem_or_default (((List.range r.length).filter (fun p => p ≠ v.1)).filter
          (fun p => decide (RO.violCount dist speed (RO.moveOrder r v.2.1 p) st
            < RO.violCountWith r staleArrs))) v.1 with hmem | hdef
      · have hqps := List.mem_of_mem_filter hmem
        have hnok := List.find?_eq_none.mp hfind _ hqps
        rw [if_pos hqv, if_neg (by simpa using hnok), if_neg hqv]
      · exact absurd hdef hqv

/-- C4, counterexample: on the route [1, 2, 3, 4] above with start 00:00,
stop 3 (arrival 42, deadline 31) is the most severe violation and is
repaired first; the current violated count is 3, no trial position makes
the route feasible, position 0 lowers the count to 1 and position 3 to 2,
yet the step keeps stop 3 at position 3 — the LAST improving position —
instead of the count-minimizing position 0 demanded by the claim. -/
theorem C4_counterexample :
    (RO.check_time_windows dLat4 3600 r4 0) = (false, [31, 34, 42, 61]) ∧
    RO.collectViolations r4 [31, 34, 42, 61]
      = [(1, ro2, 34), (2, ro3, 42), (3, ro4, 61)] ∧
    RO.sevKey (2, ro3, 42) = 11 ∧ RO.sevKey (1, ro2, 34) = 5 ∧
    RO.sevKey (3, ro4, 61) = 7 ∧
    RO.violCountWith r4 [31, 34, 42, 61] = 3 ∧
    (RO.check_time_windows dLat4 3600 (RO.moveOrder r4 ro3 0) 0).1 = false ∧
    (RO.check_time_windows dLat4 3600 (RO.moveOrder r4 ro3 1) 0).1 = false ∧
    (RO.check_time_windows dLat4 3600 (RO.moveOrder r4 ro3 3) 0).1 = false ∧
    RO.violCount dLat4 3600 (RO.moveOrder r4 ro3 0) 0 = 1 ∧
    RO.violCount dLat4 3600 (RO.moveOrder r4 ro3 3) 0 = 2 ∧
    RO.fix_step dLat4 3600 0 [31, 34, 42, 61] r4 (2, ro3, 42) =
      Except.ok [ro1, ro2, ro4, ro3] := by
  have hm0 : RO.moveOrder r4 ro3 0 = [ro3, ro1, ro2, ro4] := by decide
  have hm1 : RO.moveOrder r4 ro3 1 = [ro1, ro3, ro2, ro4] := by decide
  have hm3 : RO.moveOrder r4 ro3 3 = [ro1, ro2, ro4, ro3] := by decide
  have hcr : RO.check_time_windows dLat4 3600 r4 0 = (false, [31, 34, 42, 61]) := by
    norm_num [RO.check_time_windows, RO.checkAux, RO.clampW, RO.violB,
      RO.can_be_visited_at, RO.has_time_window, RO.startSeconds, RO.endSeconds,
      RO.travelT, pyInt, dLat4, ro1, ro2, ro3, ro4, r4]
  have hc0 : RO.check_time_windows dLat4 3600 [ro3, ro1, ro2, ro4] 0
      = (false, [20, 31, 34, 45]) := by
    norm_num [RO.check_time_windows, RO.checkAux, RO.clampW, RO.violB,
      RO.can_be_visited_at, RO.has_time_window, RO.startSeconds, RO.endSeconds,
      RO.travelT, pyInt, dLat4, ro1, ro2, ro3, ro4]
  have hc1 : RO.check_time_windows dLat4 3600 [ro1, ro3, ro2, ro4] 0
      = (false, [31, 42, 50, 61]) := by
    norm_num [RO.check_time_windows, RO.checkAux, RO.clampW, RO.violB,
      RO.can_be_visited_at, RO.has_time_window, RO.startSeconds, RO.endSeconds,
      RO.travelT, pyInt, dLat4, ro1, ro2, ro3, ro4]
  have hc3 : RO.check_time_windows dLat4 3600 [ro1, ro2, ro4, ro3] 0
      = (false, [31, 34, 45, 64]) := by
    norm_num [RO.check_time_windows, RO.checkAux, RO.clampW, RO.violB,
      RO.can_be_visited_at, RO.has_time_window, RO.startSeconds, RO.endSeconds,
      RO.travelT, pyInt, dLat4, ro1, ro2, ro3, ro4]
  have hv0 : RO.violCount dLat4 3600 [ro3, ro1, ro2, ro4] 0 = 1 := by
    rw [RO.violCount, hc0]
    decide
  have hv1 : RO.violCount dLat4 3600 [ro1, ro3, ro2, ro4] 0 = 3 := by
    rw [RO.violCount, hc1]
    decide
  have hv3 : RO.violCount dLat4 3600 [ro1, ro2, ro4, ro3] 0 = 2 := by
    rw [RO.violCount, hc3]
    decide
  have hcur : RO.violCountWith r4 [31, 34, 42, 61] = 3 := by decide
  refine ⟨hcr, by decide, by decide, by decide, by decide, hcur,
    by rw [hm0, hc0], by rw [hm1, hc1], by rw [hm3, hc3],
    by rw [hm0]; exact hv0, by rw [hm3]; exact hv3, ?_⟩
  simp only [RO.fix_step]
  rw [show List.range r4.length = [0, 1, 2, 3] from by decide]
  simp [scanPositions, hm0, hm1, hm3, hc0, hc1, hc3, hv0, hv1, hv3, hcur]

/-! ## Claims C6 to C10 -/

/-- C6: running the violation repairer on a route the feasibility check
reports fully feasible returns the identical route, and hence running the
repairer twice yields the same route as running it once. -/
theorem C6_repair_feasible_noop (dist : RO.Order → RO.Order → ℚ) (speed : ℚ)
    (r : List RO.Order) (st : Int)
    (h : (RO.check_time_windows dist speed r st).1 = true) :
    RO.fix_time_window_violations dist speed r st = r ∧
    RO.fix_time_window_violations dist speed
        (RO.fix_time_window_violations dist speed r st) st
      = RO.fix_time_window_violations dist speed r st := by
  have h1 := RO.fix_of_feasible dist speed r st h
  exact ⟨h1, by rw [h1]; exact h1⟩

/-- Feasible single-stop route for the C6 witness. -/
def roW : RO.Order := ⟨1, "w", 0, 0, some 10, some 100⟩

/-- C6, witness at a concrete feasible route. -/
theorem C6_witness :
    RO.fix_time_window_violations (fun _ _ => 0) 3600 [roW] 50 = [roW] ∧
    RO.fix_time_window_violations (fun _ _ => 0) 3600
        (RO.fix_time_window_violations (fun _ _ => 0) 3600 [roW] 50) 50
      = RO.fix_time_window_violations (fun _ _ => 0) 3600 [roW] 50 :=
  C6_repair_feasible_noop (fun _ _ => 0) 3600 [roW] 50 (by decide)

/-- C7: `move_order` with an index outside the current bounds returns
failure and leaves the stored order list exactly unchanged (also when the
id is unknown, in which case it fails regardless of the index). -/
theorem C7_move_order_invalid_index (orders : List VM.Order) (oid idx : Int)
    (h : idx < 0 ∨ (orders.length : Int) ≤ idx) :
    VM.move_order orders oid idx = (false, orders) := by
  simp only [VM.move_order]
  cases hfind : VM.findWithIndex orders oid with
  | none => rfl
  | some p =>
    obtain ⟨ci, o⟩ := p
    exact if_pos h

/-- C7, witness: a known id with an out-of-range index. -/
theorem C7_witness : VM.move_order [vmP] 2 5 = (false, [vmP]) :=
  C7_move_order_invalid_index [vmP] 2 5 (Or.inr (by decide))

/-- C8: `mark_order_as_delivered` is idempotent for a present id — the
first call succeeds, the second call succeeds without changing the list,
so the delivered count does not increase twice; for an absent id the call
fails and the list is returned unchanged. -/
theorem C8_mark_delivered_idempotent (orders : List VM.Order) (oid : Int) :
    (VM.hasId orders oid = true →
      (VM.mark_order_as_delivered orders oid).1 = true ∧
      VM.mark_order_as_delivered (VM.mark_order_as_delivered orders oid).2 oid
        = (true, (VM.mark_order_as_delivered orders oid).2) ∧
      VM.deliveredCount (VM.mark_order_as_delivered
          (VM.mark_order_as_delivered orders oid).2 oid).2
        = VM.deliveredCount (VM.mark_order_as_delivered orders oid).2) ∧
    (VM.hasId orders oid = false →
      VM.mark_order_as_delivered orders oid = (false, orders)) := by
  induction orders with
  | nil =>
    constructor
    · intro h
      simp [VM.hasId] at h
    · intro _
      rfl
  | cons o rest ih =>
    by_cases hid : o.id = oid
    · constructor
      · intro _
        simp only [VM.mark_order_as_delivered, if_pos hid]
        by_cases hdel : o.is_delivered = true
        · rw [if_pos hdel]
          refine ⟨rfl, ?_, ?_⟩
          · simp only [VM.mark_order_as_delivered, if_pos hid, if_pos hdel]
          · simp only [VM.mark_order_as_delivered, if_pos hid, if_pos hdel]
        · rw [if_neg hdel]
          refine ⟨rfl, ?_, ?_⟩
          · simp [VM.mark_order_as_delivered, hid]
          · simp [VM.mark_order_as_delivered, hid]
      · intro hfalse
        simp [VM.hasId, hid] at hfalse
    · have hhas : VM.hasId (o :: rest) oid = VM.hasId rest oid := by
        simp [VM.hasId, hid]
      constructor
      · intro h
        rw [hhas] at h
        obtain ⟨ih1, ih2, _⟩ := ih.1 h
        simp only [VM.mark_order_as_delivered, if_neg hid]
        refine ⟨ih1, ?_, ?_⟩
        · simp only [VM.mark_order_as_delivered, if_neg hid, ih2]
        · simp only [VM.mark_order_as_delivered, if_neg hid, ih2]
      · intro h
        rw [hhas] at h
        have := ih.2 h
        simp only [VM.mark_order_as_delivered, if_neg hid, this]

/-- C8, witness: double delivery of a present id, and an absent id. -/
theorem C8_witness :
    ((VM.mark_order_as_delivered [vmP] 2).1 = true ∧
      VM.mark_order_as_delivered (VM.mark_order_as_delivered [vmP] 2).2 2
        = (true, (VM.mark_order_as_delivered [vmP] 2).2) ∧
      VM.deliveredCount (VM.mark_order_as_delivered
          (VM.mark_order_as_delivered [vmP] 2).2 2).2
        = VM.deliveredCount (VM.mark_order_as_delivered [vmP] 2).2) ∧
    VM.mark_order_as_delivered [vmP] 99 = (false, [vmP]) :=
  ⟨(C8_mark_delivered_idempotent [vmP] 2).1 (by decide),
   (C8_mark_delivered_idempotent [vmP] 99).2 (by decide)⟩

/-- C9: in the `route_optimizer.py` variant, an order built with a window
end but no window start reports `has_time_window = false`, can be visited
at every arrival time, is never collected as a violation by the
feasibility machinery, and receives no lateness penalty in the greedy
score — its deadline is ignored by every operation. -/
theorem C9_deadline_only_ignored (i : Int) (addr : String) (lat lon : ℚ)
    (e : Int) :
    RO.has_time_window ⟨i, addr, lat, lon, none, some e⟩ = false ∧
    (∀ t, RO.can_be_visited_at ⟨i, addr, lat, lon, none, some e⟩ t = true) ∧
    (∀ t, RO.violB ⟨i, addr, lat, lon, none, some e⟩ t = false) ∧
    (∀ (dist : RO.Order → RO.Order → ℚ) (speed : ℚ) (last : RO.Order) (ct : Int),
      RO.roScore dist speed last ct ⟨i, addr, lat, lon, none, some e⟩
        = dist last ⟨i, addr, lat, lon, none, some e⟩) ∧
    (∀ (r : List RO.Order) (arrs : List Int) (j : Nat) (a : Int),
      (j, (⟨i, addr, lat, lon, none, some e⟩ : RO.Order), a)
        ∉ RO.collectViolations r arrs) := by
  refine ⟨rfl, fun t => rfl, fun t => rfl, ?_, ?_⟩
  · intro dist speed last ct
    simp only [RO.roScore, RO.has_time_window, Option.isSome_none,
      Bool.false_eq_true, if_false, add_zero]
  · intro r arrs j a hmem
    have := (List.mem_filter.mp hmem).2
    simp [RO.violB, RO.has_time_window] at this

/-- C9, witness at a concrete deadline-only order. -/
theorem C9_witness :
    RO.has_time_window ⟨7, "w", 0, 0, none, some 100⟩ = false ∧
    RO.violB ⟨7, "w", 0, 0, none, some 100⟩ 500 = false ∧
    (0, (⟨7, "w", 0, 0, none, some 100⟩ : RO.Order), 500)
      ∉ RO.collectViolations [⟨7, "w", 0, 0, none, some 100⟩] [500] :=
  ⟨(C9_deadline_only_ignored 7 "w" 0 0 100).1,
   (C9_deadline_only_ignored 7 "w" 0 0 100).2.2.1 500,
   (C9_deadline_only_ignored 7 "w" 0 0 100).2.2.2.2
     [⟨7, "w", 0, 0, none, some 100⟩] [500] 0 500⟩

/-- C10: a single-order list is returned as-is with `all_valid = True`
and arrivals `[start_time]`, for every distance function, speed and start
time — the travel matrix and the order's window are never consulted, even
when the start time lies outside the window. -/
theorem C10_singleton_early_return (dist : RO.Order → RO.Order → ℚ)
    (speed : ℚ) (o : RO.Order) (st : Int) :
    RO.optimize_route dist speed [o] st = ([o], true, [st]) := rfl

end GoodSpeed
